import Mathlib

/-!
Verification of the crowl Common Crawl ingestion pipeline
(src/pkg/crowl/commoncrawl.go and src/pkg/commoncrawl/commoncrawl.go).

Bytes of the decompressed streams are modelled as Lean Char values
(every byte is a code point below 256); Go strings become List Char.
Fallible operations return Option.  The Go panic on make with a negative
size is modelled by Option.none at top level.
-/

namespace Crowl

/-- Whitespace class of Go regexp. In Go a regexp by default matches
space, tab, newline, form feed and carriage return (the class used by
the reSpaces pattern in cleanSpaces). -/
def isReSpace (c : Char) : Bool :=
  c = ' ' || c = '\t' || c = '\n' || c = Char.ofNat 12 || c = '\r'

/-- Whitespace predicate of Go unicode.IsSpace restricted to Latin-1
(space, tab, newline, vertical tab, form feed, carriage return,
next line, no-break space); used by strings.TrimSpace and
strings.Fields. -/
def isUniSpace (c : Char) : Bool :=
  c = ' ' || c = '\t' || c = '\n' || c = Char.ofNat 11 || c = Char.ofNat 12 ||
  c = '\r' || c = Char.ofNat 133 || c = Char.ofNat 160

/-- Drop the longest suffix whose characters satisfy p. -/
def dropRightWhile (p : Char → Bool) (l : List Char) : List Char :=
  (l.reverse.dropWhile p).reverse

/-- Models strings.TrimSpace. -/
def goTrimSpace (l : List Char) : List Char :=
  dropRightWhile isUniSpace (l.dropWhile isUniSpace)

/-- Models strings.TrimRight(line, a cutset of carriage return and
newline) as used on each header line of parseWarc. -/
def trimRightCRLF (l : List Char) : List Char :=
  dropRightWhile (fun c => c = '\r' || c = '\n') l

/-- Split a header line at its first colon; none when the line has no
colon (parseWarc ignores such lines).  Models strings.SplitN with
separator colon and limit 2. -/
def breakAtColon : List Char → Option (List Char × List Char)
  | [] => none
  | c :: rest =>
    if c = ':' then some ([], rest)
    else (breakAtColon rest).map (fun p => (c :: p.1, p.2))

/-- Models one step of ParseHeader: a line with a colon yields its
trimmed key and trimmed value. -/
def parseHeaderLine (l : List Char) : Option (List Char × List Char) :=
  (breakAtColon l).map (fun p => (goTrimSpace p.1, goTrimSpace p.2))

/-- Models a lookup in the Go map built by ParseHeader: the value of the
last header line carrying the key, and the empty string (the Go map
zero value) when the key is absent. -/
def headerGet (lines : List (List Char)) (key : List Char) : List Char :=
  (lines.filterMap parseHeaderLine).foldl
    (fun acc p => if p.1 = key then p.2 else acc) []

/-- The ASCII digit for n below 10. -/
def digitChar (n : Nat) : Char := Char.ofNat (48 + n)

/-- Is c an ASCII decimal digit. -/
def isDigitChar (c : Char) : Bool := 48 ≤ c.toNat && c.toNat ≤ 57

/-- Helper for the decimal rendering of a natural number; fuel bounds
the number of digits produced. -/
def decCharsAux : Nat → Nat → List Char → List Char
  | 0, _, acc => acc
  | fuel + 1, n, acc =>
    let acc2 := digitChar (n % 10) :: acc
    if n < 10 then acc2 else decCharsAux fuel (n / 10) acc2

/-- Decimal rendering of a natural number, most significant digit
first; models the percent-d formatting of fmt.Sprintf for the
non-negative lengths written by writeWRC. -/
def decChars (n : Nat) : List Char := decCharsAux (n + 1) n []

/-- Digit value of an ASCII digit character. -/
def digitVal (c : Char) : Option Nat :=
  if isDigitChar c then some (c.toNat - 48) else none

/-- Accumulating decimal parser over a digit list. -/
def parseDigitsAux : List Char → Nat → Option Nat
  | [], acc => some acc
  | c :: rest, acc =>
    match digitVal c with
    | none => none
    | some d => parseDigitsAux rest (acc * 10 + d)

/-- Parse a non-empty all-digit list as a natural number. -/
def parseDigits (l : List Char) : Option Nat :=
  match l with
  | [] => none
  | _ :: _ => parseDigitsAux l 0

/-- Models strconv.Atoi: optional sign followed by at least one digit
(the int overflow bound of Go is not modelled; the streams at hand stay
far below it). -/
def goAtoi (l : List Char) : Option Int :=
  match l with
  | [] => none
  | c :: rest =>
    if c = '-' then (parseDigits rest).map (fun n => -(n : Int))
    else if c = '+' then (parseDigits rest).map (fun n => (n : Int))
    else (parseDigits (c :: rest)).map (fun n => (n : Int))

/-- Models the use of Atoi in parseWarc where the error is discarded:
a failed parse leaves the Go zero value 0. -/
def atoiZ (l : List Char) : Int := (goAtoi l).getD 0

theorem decCharsAux_append (fuel : Nat) :
    ∀ n acc, decCharsAux fuel n acc = decCharsAux fuel n [] ++ acc := by
  induction fuel with
  | zero => intro n acc; simp [decCharsAux]
  | succ f ih =>
    intro n acc
    simp only [decCharsAux]
    by_cases h : n < 10
    · simp [h]
    · simp only [h, if_false]
      rw [ih (n / 10) (digitChar (n % 10) :: acc), ih (n / 10) [digitChar (n % 10)]]
      simp

theorem decCharsAux_ne_nil (fuel n : Nat) : decCharsAux (fuel + 1) n [] ≠ [] := by
  simp only [decCharsAux]
  by_cases h : n < 10
  · simp [h]
  · simp only [h, if_false]
    rw [decCharsAux_append]
    simp

theorem decChars_ne_nil (n : Nat) : decChars n ≠ [] := decCharsAux_ne_nil n n

theorem digitVal_digitChar (m : Nat) (h : m < 10) : digitVal (digitChar m) = some m := by
  interval_cases m <;> decide

theorem isDigit_digitChar (m : Nat) (h : m < 10) : isDigitChar (digitChar m) = true := by
  interval_cases m <;> decide

theorem decCharsAux_all_digits (fuel : Nat) :
    ∀ n, ∀ c ∈ decCharsAux fuel n [], isDigitChar c = true := by
  induction fuel with
  | zero => intro n c hc; simp [decCharsAux] at hc
  | succ f ih =>
    intro n c hc
    simp only [decCharsAux] at hc
    by_cases h : n < 10
    · simp [h] at hc
      subst hc
      exact isDigit_digitChar _ (Nat.mod_lt _ (by norm_num))
    · simp only [h, if_false] at hc
      rw [decCharsAux_append] at hc
      rcases List.mem_append.mp hc with h1 | h1
      · exact ih _ _ h1
      · simp at h1
        subst h1
        exact isDigit_digitChar _ (Nat.mod_lt _ (by norm_num))

theorem decChars_all_digits (n : Nat) : ∀ c ∈ decChars n, isDigitChar c = true :=
  decCharsAux_all_digits (n + 1) n

theorem parseDigitsAux_append (l1 l2 : List Char) :
    ∀ a, parseDigitsAux (l1 ++ l2) a =
      match parseDigitsAux l1 a with
      | none => none
      | some b => parseDigitsAux l2 b := by
  induction l1 with
  | nil => intro a; simp [parseDigitsAux]
  | cons c rest ih =>
    intro a
    simp only [List.cons_append, parseDigitsAux]
    cases digitVal c with
    | none => simp
    | some d => simp [ih]

theorem parseDigitsAux_decCharsAux (fuel : Nat) :
    ∀ n a, n < fuel →
      parseDigitsAux (decCharsAux fuel n []) a =
        some (a * 10 ^ (decCharsAux fuel n []).length + n) := by
  induction fuel with
  | zero => intro n a h; omega
  | succ f ih =>
    intro n a h
    by_cases h10 : n < 10
    · simp only [decCharsAux, h10, if_true]
      simp only [parseDigitsAux, digitVal_digitChar (n % 10) (Nat.mod_lt _ (by norm_num))]
      simp only [List.length_singleton, pow_one]
      rw [Nat.mod_eq_of_lt h10]
    · have hrec : n / 10 < f := by
        have h1 : n / 10 < n := Nat.div_lt_self (by omega) (by norm_num)
        omega
      simp only [decCharsAux, h10, if_false]
      rw [decCharsAux_append]
      rw [parseDigitsAux_append]
      rw [ih (n / 10) a hrec]
      simp only [parseDigitsAux, digitVal_digitChar (n % 10) (Nat.mod_lt _ (by norm_num))]
      have hlen : (decCharsAux f (n / 10) [] ++ [digitChar (n % 10)]).length =
          (decCharsAux f (n / 10) []).length + 1 := by simp
      rw [hlen]
      congr 1
      have : (a * 10 ^ (decCharsAux f (n / 10) []).length + n / 10) * 10 + n % 10 =
          a * (10 ^ (decCharsAux f (n / 10) []).length * 10) + (n / 10 * 10 + n % 10) := by
        ring
      have hdm : n / 10 * 10 + n % 10 = n := by omega
      rw [this, pow_succ, hdm]

theorem parseDigits_decChars (n : Nat) : parseDigits (decChars n) = some n := by
  have h := parseDigitsAux_decCharsAux (n + 1) n 0 (Nat.lt_succ_self n)
  have hne := decChars_ne_nil n
  unfold decChars at *
  cases hd : decCharsAux (n + 1) n [] with
  | nil => exact absurd hd hne
  | cons c rest =>
    rw [hd] at h
    simp only [parseDigits]
    rw [h]
    simp

theorem goAtoi_decChars (n : Nat) : goAtoi (decChars n) = some (n : Int) := by
  have hne := decChars_ne_nil n
  have hdig := decChars_all_digits n
  have hpd := parseDigits_decChars n
  cases hd : decChars n with
  | nil => exact absurd hd hne
  | cons c rest =>
    have hc : isDigitChar c = true := by
      apply hdig
      rw [hd]
      exact List.mem_cons_self c rest
    have hcm : c ≠ '-' ∧ c ≠ '+' := by
      constructor <;> (intro hEq; rw [hEq] at hc; simp [isDigitChar] at hc)
    simp only [goAtoi, hcm.1, hcm.2, if_false]
    rw [hd] at hpd
    rw [hpd]
    simp

theorem atoiZ_decChars (n : Nat) : atoiZ (decChars n) = (n : Int) := by
  simp [atoiZ, goAtoi_decChars]

/-- One decompressed archive byte stream.  readErr records whether the
underlying reader ends with a non-EOF read error instead of a clean
end-of-stream (for example a truncated gzip member). -/
structure GoStream where
  data : List Char
  readErr : Bool

/-- Models bufio.Reader.ReadString reading up to a newline: the line
without its final newline plus the remaining stream; none when the
stream ends (EOF or read error) before a newline is found. -/
def readLineRaw : List Char → Option (List Char × List Char)
  | [] => none
  | c :: rest =>
    if c = '\n' then some ([], rest)
    else (readLineRaw rest).map (fun p => (c :: p.1, p.2))

/-- Models the inner header loop of parseWarc: collect lines (each
trimmed of trailing carriage returns and newlines) until a blank line;
none when the stream ends mid-header, which parseWarc treats as FINISH.
The fuel argument bounds the number of lines and is always called with
more fuel than the stream has bytes. -/
def readHeaderBlock : Nat → List Char → Option (List (List Char) × List Char)
  | 0, _ => none
  | fuel + 1, data =>
    match readLineRaw data with
    | none => none
    | some (line, rest) =>
      let t := trimRightCRLF line
      if t = [] then some ([], rest)
      else (readHeaderBlock fuel rest).map (fun p => (t :: p.1, p.2))

/-- A record handed from the read loop to the clean workers (parseJob
in the Go source). -/
structure Job where
  url : List Char
  content : List Char
deriving DecidableEq

def keyWarcType : List Char := "WARC-Type".data

def keyWarcTargetURI : List Char := "WARC-Target-URI".data

def keyContentLength : List Char := "Content-Length".data

def responseVal : List Char := "response".data

/-- The read loop of parseWarc in pkg/crowl/commoncrawl.go (lines
385-425).  Returns the jobs sent to jobChan together with a flag that
is true exactly when the FINISH path runs, i.e. when logCompletedWarc
is invoked for the archive; none models the Go panic on a negative
Content-Length (make with a negative size) and fuel exhaustion, which
cannot happen at the fuel parseWarcModel supplies.  Both io.EOF and
any other read error lead to the same FINISH path, as in the source. -/
def parseLoop : Nat → List Char → List Job → Option (List Job × Bool)
  | 0, _, _ => none
  | fuel + 1, data, acc =>
    match readHeaderBlock (data.length + 1) data with
    | none => some (acc.reverse, true)
    | some (lines, rest) =>
      if headerGet lines keyWarcType ≠ responseVal then
        parseLoop fuel (rest.drop (atoiZ (headerGet lines keyContentLength)).toNat) acc
      else
        let cl := atoiZ (headerGet lines keyContentLength)
        if cl < 0 then none
        else
          let n := cl.toNat
          if rest.length < n then
            parseLoop fuel (rest.drop n) acc
          else
            parseLoop fuel (rest.drop n)
              (Job.mk (headerGet lines keyWarcTargetURI) (rest.take n) :: acc)

/-- parseWarc of pkg/crowl applied to one decompressed stream: the jobs
handed to the clean workers and whether the archive is logged as
completed. -/
def parseWarcModel (s : GoStream) : Option (List Job × Bool) :=
  parseLoop (s.data.length + 1) s.data []

/-- The read loop of parseWarc in pkg/commoncrawl/commoncrawl.go (lines
331-382).  Identical to the pkg/crowl loop except for the consecutive
error counter: the Go source declares errorCount as 0 at the top of
every outer-loop iteration, so the counter local to an iteration is 0
and after a failed io.ReadFull it is exactly 1; the abort branch
compares it against maxErrors = 10.  The returned flag is true exactly
when that abort branch (break past maxErrors) runs. -/
def parseLoopCC : Nat → List Char → List Job → Option (List Job × Bool)
  | 0, _, _ => none
  | fuel + 1, data, acc =>
    match readHeaderBlock (data.length + 1) data with
    | none => some (acc.reverse, false)
    | some (lines, rest) =>
      if headerGet lines keyWarcType ≠ responseVal then
        parseLoopCC fuel (rest.drop (atoiZ (headerGet lines keyContentLength)).toNat) acc
      else
        let cl := atoiZ (headerGet lines keyContentLength)
        if cl < 0 then none
        else
          let n := cl.toNat
          if rest.length < n then
            let errorCount := 0 + 1
            if errorCount > 10 then some (acc.reverse, true)
            else parseLoopCC fuel (rest.drop n) acc
          else
            parseLoopCC fuel (rest.drop n)
              (Job.mk (headerGet lines keyWarcTargetURI) (rest.take n) :: acc)

/-- parseWarc of pkg/commoncrawl applied to one decompressed stream. -/
def parseWarcCCModel (s : GoStream) : Option (List Job × Bool) :=
  parseLoopCC (s.data.length + 1) s.data []

/-- Models bytes.Index: index of the first occurrence of pat. -/
def indexOfSubAux (pat : List Char) : List Char → Nat → Option Nat
  | [], i => if pat.isPrefixOf [] then some i else none
  | c :: rest, i =>
    if pat.isPrefixOf (c :: rest) then some i else indexOfSubAux pat rest (i + 1)

def indexOfSub (data pat : List Char) : Option Nat := indexOfSubAux pat data 0

def crlfcrlf : List Char := "\r\n\r\n".data

def lflf : List Char := "\n\n".data

/-- The header/body boundary search of the clean worker (lines 357-363
of pkg/crowl/commoncrawl.go): first the four-byte separator, then the
two-byte one. -/
def findHeaderEnd (content : List Char) : Option Nat :=
  match indexOfSub content crlfcrlf with
  | some i => some i
  | none => indexOfSub content lflf

/-- The body handed to CleanHTML: everything from four bytes past the
start of the boundary, regardless of which separator matched (line 364:
content from headerEnd + 4). -/
def splitBody (content : List Char) : Option (List Char) :=
  (findHeaderEnd content).map (fun i => content.drop (i + 4))

/-- One clean worker processing one job, with the HTML cleaning step
passed in as a function: drop the job when no separator is found or
cleaning fails, otherwise produce the (url, cleaned body) pair written
by writeWRC. -/
def processJob (cleanFn : List Char → Option (List Char)) (j : Job) :
    Option (List Char × List Char) :=
  match splitBody j.content with
  | none => none
  | some body => (cleanFn body).map (fun cleaned => (j.url, cleaned))

/-- The entries the clean-worker pool writes for a list of jobs. -/
def entriesOf (cleanFn : List Char → Option (List Char)) (jobs : List Job) :
    List (List Char × List Char) :=
  jobs.filterMap (processJob cleanFn)

/-- One output record of writeWRC: url, newline, decimal byte length,
newline, raw bytes, two newlines. -/
def writeEntry (url content : List Char) : List Char :=
  url ++ '\n' :: (decChars content.length ++ '\n' :: (content ++ '\n' :: '\n' :: []))

/-- The compacted corpus produced for a sequence of entries. -/
def writeAll (entries : List (List Char × List Char)) : List Char :=
  entries.foldr (fun e acc => writeEntry e.1 e.2 ++ acc) []

/-- Reader of the documented output framing (spec section 6 and the
consumer in ProcessWRC): url line, decimal length line, exactly that
many raw bytes, then the two newlines; none on any framing violation. -/
def readCorpusAux : Nat → List Char → Option (List (List Char × List Char))
  | _, [] => some []
  | 0, _ :: _ => none
  | fuel + 1, data =>
    match readLineRaw data with
    | none => none
    | some (url, rest1) =>
      match readLineRaw rest1 with
      | none => none
      | some (lenLine, rest2) =>
        match parseDigits lenLine with
        | none => none
        | some n =>
          if n ≤ rest2.length then
            match rest2.drop n with
            | '\n' :: '\n' :: rest3 =>
              (readCorpusAux fuel rest3).map (fun es => (url, rest2.take n) :: es)
            | _ => none
          else none

def readCorpus (data : List Char) : Option (List (List Char × List Char)) :=
  readCorpusAux (data.length + 1) data

/-- The length field of a framed entry: its second line. -/
def lengthFieldOf (entry : List Char) : Option (List Char) :=
  (readLineRaw entry).bind (fun p => (readLineRaw p.2).map (fun q => q.1))

theorem readLineRaw_append (u rest : List Char) (h : '\n' ∉ u) :
    readLineRaw (u ++ '\n' :: rest) = some (u, rest) := by
  induction u with
  | nil => simp [readLineRaw]
  | cons c cs ih =>
    have hc : c ≠ '\n' := fun hEq => h (hEq ▸ List.mem_cons_self c cs)
    have hcs : '\n' ∉ cs := fun hm => h (List.mem_cons_of_mem c hm)
    simp [readLineRaw, hc, ih hcs]

theorem mem_decChars_not_nl (n : Nat) : '\n' ∉ decChars n := by
  intro hm
  have := decChars_all_digits n _ hm
  simp [isDigitChar] at this

theorem writeEntry_append (u b X : List Char) :
    writeEntry u b ++ X =
      u ++ '\n' :: (decChars b.length ++ '\n' :: (b ++ '\n' :: '\n' :: X)) := by
  simp [writeEntry]

theorem writeAll_length_ge (entries : List (List Char × List Char)) :
    entries.length ≤ (writeAll entries).length := by
  induction entries with
  | nil => simp [writeAll]
  | cons e es ih =>
    have : writeAll (e :: es) = writeEntry e.1 e.2 ++ writeAll es := rfl
    rw [this]
    simp only [List.length_append, List.length_cons, writeEntry]
    omega

theorem readCorpusAux_writeAll :
    ∀ (entries : List (List Char × List Char)) (fuel : Nat),
      entries.length ≤ fuel → (∀ e ∈ entries, '\n' ∉ e.1) →
      readCorpusAux fuel (writeAll entries) = some entries := by
  intro entries
  induction entries with
  | nil => intro fuel _ _; simp [writeAll, readCorpusAux]
  | cons e es ih =>
    intro fuel hlen hnl
    obtain ⟨u, b⟩ := e
    cases fuel with
    | zero => simp only [List.length_cons] at hlen; omega
    | succ f =>
      have hstream : writeAll ((u, b) :: es) =
          u ++ '\n' :: (decChars b.length ++ '\n' :: (b ++ '\n' :: '\n' :: writeAll es)) := by
        have : writeAll ((u, b) :: es) = writeEntry u b ++ writeAll es := rfl
        rw [this, writeEntry_append]
      rw [hstream]
      have hnlu : '\n' ∉ u := hnl (u, b) (List.mem_cons_self _ _)
      have h1 : readLineRaw (u ++ '\n' ::
          (decChars b.length ++ '\n' :: (b ++ '\n' :: '\n' :: writeAll es))) =
          some (u, decChars b.length ++ '\n' :: (b ++ '\n' :: '\n' :: writeAll es)) :=
        readLineRaw_append _ _ hnlu
      have h2 : readLineRaw (decChars b.length ++ '\n' :: (b ++ '\n' :: '\n' :: writeAll es)) =
          some (decChars b.length, b ++ '\n' :: '\n' :: writeAll es) :=
        readLineRaw_append _ _ (mem_decChars_not_nl _)
      have hcons : ∃ c cs, u ++ '\n' ::
          (decChars b.length ++ '\n' :: (b ++ '\n' :: '\n' :: writeAll es)) = c :: cs := by
        cases u with
        | nil => exact ⟨_, _, rfl⟩
        | cons c cs => exact ⟨_, _, rfl⟩
      obtain ⟨c, cs, hcs⟩ := hcons
      rw [hcs]
      rw [hcs] at h1
      simp only [readCorpusAux, h1, h2, parseDigits_decChars]
      have hle : b.length ≤ (b ++ '\n' :: '\n' :: writeAll es).length := by
        simp
      have htake : (b ++ '\n' :: '\n' :: writeAll es).take b.length = b := List.take_left b _
      have hdrop : (b ++ '\n' :: '\n' :: writeAll es).drop b.length =
          '\n' :: '\n' :: writeAll es := List.drop_left b _
      simp only [hle, if_true, htake, hdrop]
      have hrec := ih f (by simp only [List.length_cons] at hlen; omega)
        (fun x hx => hnl x (List.mem_cons_of_mem _ hx))
      rw [hrec]
      rfl

/-- C5: writing entries through writeWRC and reading the container back
with the documented framing (url line, decimal length line, exactly
that many raw bytes, blank separator) recovers exactly the written
(url, body) pairs, and the length field written for each entry is the
decimal rendering of the byte length of its body.  The urls must not
contain a newline, which the framing itself requires. -/
theorem c5_roundtrip (entries : List (List Char × List Char))
    (hnl : ∀ e ∈ entries, '\n' ∉ e.1) :
    readCorpus (writeAll entries) = some entries ∧
    ∀ e ∈ entries, lengthFieldOf (writeEntry e.1 e.2) = some (decChars e.2.length) ∧
      parseDigits (decChars e.2.length) = some e.2.length := by
  constructor
  · exact readCorpusAux_writeAll entries ((writeAll entries).length + 1)
      (Nat.le_succ_of_le (writeAll_length_ge entries)) hnl
  · intro e he
    obtain ⟨u, b⟩ := e
    have hnlu : '\n' ∉ u := hnl (u, b) he
    have h1 : readLineRaw (writeEntry u b) =
        some (u, decChars b.length ++ '\n' :: (b ++ '\n' :: '\n' :: [])) := by
      have : writeEntry u b = writeEntry u b ++ [] := by simp
      rw [this, writeEntry_append]
      exact readLineRaw_append _ _ hnlu
    have h2 : readLineRaw (decChars b.length ++ '\n' :: (b ++ '\n' :: '\n' :: [])) =
        some (decChars b.length, b ++ '\n' :: '\n' :: []) :=
      readLineRaw_append _ _ (mem_decChars_not_nl _)
    refine ⟨?_, parseDigits_decChars _⟩
    simp [lengthFieldOf, h1, h2]

/-- Concrete witness for the round trip: one entry with url u1 and
two-byte body ab survives write and read-back unchanged. -/
theorem c5_roundtrip_witness :
    readCorpus (writeAll [("u1".data, "ab".data)]) = some [("u1".data, "ab".data)] :=
  (c5_roundtrip [("u1".data, "ab".data)] (by decide)).1

theorem parseLoop_marked (fuel : Nat) :
    ∀ data acc r, parseLoop fuel data acc = some r → r.2 = true := by
  induction fuel with
  | zero => intro data acc r h; simp [parseLoop] at h
  | succ f ih =>
    intro data acc r h
    simp only [parseLoop] at h
    cases hh : readHeaderBlock (data.length + 1) data with
    | none =>
      rw [hh] at h
      simp only [Option.some.injEq] at h
      rw [← h]
    | some p =>
      rw [hh] at h
      obtain ⟨lines, rest⟩ := p
      dsimp only at h
      split at h
      · exact ih _ _ _ h
      · split at h
        · simp at h
        · split at h
          · exact ih _ _ _ h
          · exact ih _ _ _ h

/-- C1 amended: logCompletedWarc is invoked after the read loop of
parseWarc terminates and the worker pool has drained, but the loop
treats every read error exactly like a clean end-of-stream: whenever
parseWarc finishes its stream (by EOF or by any read error, including
one mid-header), the archive is logged as completed. -/
theorem c1_completion_on_any_termination (s : GoStream) (r : List Job × Bool)
    (h : parseWarcModel s = some r) : r.2 = true :=
  parseLoop_marked (s.data.length + 1) s.data [] r h

/-- Witness for c1_completion_on_any_termination at a concrete stream:
the empty stream finishes and is logged as completed. -/
theorem c1_completion_witness : (([] : List Job), true).2 = true :=
  c1_completion_on_any_termination (GoStream.mk [] false) ([], true) (by decide)

/-- C1 counterexample: a stream that terminates with a read error in
the middle of a header block (its bytes contain no newline, so
ReadString fails mid-header) still reaches the FINISH path of
parseWarc, whose unconditional tail call logs the archive as
completed.  This refutes the claim that a read error mid-header never
by itself results in the archive being marked complete. -/
theorem c1_counterexample :
    (GoStream.mk "WARC/1.0".data true).readErr = true ∧
    '\n' ∉ (GoStream.mk "WARC/1.0".data true).data ∧
    parseWarcModel (GoStream.mk "WARC/1.0".data true) = some ([], true) := by
  decide

/-- A response record whose Content-Length value is not a number; the
ignored strconv.Atoi error leaves length 0, so the record is consumed
without incrementing any error counter. -/
def malformedRecord : List Char :=
  "WARC-Type: response\r\nContent-Length: bogus\r\n\r\n".data

/-- Eleven consecutive malformed body-length records. -/
def malformedStream : GoStream :=
  GoStream.mk (List.replicate 11 malformedRecord).flatten false

set_option maxRecDepth 100000 in
/-- C2, behavior of the code at the claimed failing input: on a stream
of eleven consecutive records with malformed Content-Length, the read
loop of pkg/commoncrawl never takes its maxErrors abort branch (the
counter is redeclared as 0 each iteration and a malformed length
parses to 0, which io.ReadFull satisfies trivially), every record is
forwarded as a job with an empty body, and the pkg/crowl variant of
the loop — which has no counter at all — additionally reaches FINISH
and logs the archive as completed. -/
theorem c2_error_bound_never_fires :
    parseWarcCCModel malformedStream =
      some (List.replicate 11 (Job.mk [] []), false) ∧
    parseWarcModel malformedStream =
      some (List.replicate 11 (Job.mk [] []), true) := by
  decide

/-- C10: when the header/body boundary of an HTTP payload is found only
as the two-byte separator of two newlines (no four-byte separator
occurs), the worker still advances four bytes past the start of the
boundary, so the two bytes immediately after the separator are cut off
from the body handed to CleanHTML. -/
theorem c10_lflf_boundary (content : List Char) (i : Nat)
    (hno : indexOfSub content crlfcrlf = none)
    (hlf : indexOfSub content lflf = some i) :
    splitBody content = some ((content.drop (i + 2)).drop 2) := by
  have h42 : (content.drop (i + 2)).drop 2 = content.drop (i + 4) := by
    rw [List.drop_drop]
  rw [h42]
  simp [splitBody, findHeaderEnd, hno, hlf]

/-- Witness for c10_lflf_boundary: in the payload AB, two newlines,
CDEF the boundary index is 2 and the body handed to cleaning is EF —
the bytes C and D after the separator are lost. -/
theorem c10_lflf_witness :
    splitBody "AB\n\nCDEF".data = some (("AB\n\nCDEF".data.drop (2 + 2)).drop 2) :=
  c10_lflf_boundary "AB\n\nCDEF".data 2 (by decide) (by decide)

/-- Models filepath.Base: the last element of the path after trailing
slashes are removed; a dot for the empty path, a slash for a path of
only slashes. -/
def goBase (p : List Char) : List Char :=
  if p = [] then ".".data
  else
    let stripped := dropRightWhile (fun c => c = '/') p
    if stripped = [] then "/".data
    else (stripped.reverse.takeWhile (fun c => c != '/')).reverse

/-- Models strings.Replace with limit 1: replace the first occurrence
of old. -/
def replaceFirstAux (old new : List Char) : List Char → List Char
  | [] => []
  | c :: rest =>
    if old.isPrefixOf (c :: rest) then new ++ (c :: rest).drop old.length
    else c :: replaceFirstAux old new rest

def replaceFirst (s old new : List Char) : List Char :=
  if old = [] then new ++ s else replaceFirstAux old new s

/-- The completed-file name GetNews derives from a remote archive path
(line 121 of pkg/crowl/commoncrawl.go). -/
def saveName (path : List Char) : List Char :=
  replaceFirst (goBase path) ".warc.gz".data ".wrc.gz".data

/-- Models isCompletedWarcFile: scan the completion log lines and
compare each, trimmed, against the file name.  The sync.Map of
isCompletedWarc only caches positive answers from this scan within one
process, so the durable log is the source of truth modelled here. -/
def ledgerHas (ledger : List (List Char)) (name : List Char) : Bool :=
  ledger.any (fun line => goTrimSpace line = name)

/-- The paths for which the GetNews scheduling loop (lines 120-148 of
pkg/crowl/commoncrawl.go) starts a download: every listed path whose
derived save name the completion ledger does not already hold. -/
def scheduledPaths (ledger : List (List Char)) (paths : List (List Char)) :
    List (List Char) :=
  paths.filter (fun p => !ledgerHas ledger (saveName p))

/-- The tasks handed to the parse workers: one per scheduled path whose
download succeeds (dl gives the local temp path, none on a transport
failure or non-success status); a failed download merely returns from
its goroutine.  Each task carries the local path and the completed-log
name of its save file. -/
def tasksOf (ledger : List (List Char)) (dl : List Char → Option (List Char))
    (paths : List (List Char)) : List (List Char × List Char) :=
  paths.filterMap (fun p =>
    if ledgerHas ledger (saveName p) then none
    else (dl p).map (fun localPath => (localPath, saveName p)))

/-- C3: resume correctness.  When the completion ledger already lists
the save name of archive A, a run over a path list containing A
schedules no download for A (first conjunct) and produces exactly the
download/parse tasks of the same list with A removed, for every
possible download outcome (second conjunct): zero download and zero
parse work is performed for A, and the skip happens before
scheduling. -/
theorem c3_resume_skip (ledger paths : List (List Char)) (A : List Char)
    (h : ledgerHas ledger (saveName A) = true) :
    A ∉ scheduledPaths ledger paths ∧
    ∀ dl : List Char → Option (List Char),
      tasksOf ledger dl paths = tasksOf ledger dl (paths.filter (fun q => q ≠ A)) := by
  constructor
  · intro hmem
    rw [scheduledPaths, List.mem_filter] at hmem
    rw [h] at hmem
    simp at hmem
  · intro dl
    induction paths with
    | nil => rfl
    | cons q qs ih =>
      by_cases hq : q = A
      · subst hq
        simp only [tasksOf, List.filter_cons, List.filterMap_cons, h, if_true]
        simpa [tasksOf] using ih
      · simp only [tasksOf, List.filter_cons, List.filterMap_cons]
        have : (decide (q ≠ A)) = true := by simp [hq]
        rw [this]
        simp only [if_true, List.filterMap_cons]
        by_cases hc : ledgerHas ledger (saveName q) = true
        · simp only [hc, if_true]
          simpa [tasksOf] using ih
        · simp only [Bool.not_eq_true] at hc
          simp only [hc]
          cases dl q with
          | none => simpa [tasksOf] using ih
          | some l =>
            simp only [Option.map_some']
            have := ih
            simp only [tasksOf] at this
            rw [this]

/-- Witness for c3_resume_skip: with a ledger holding CC-1.wrc.gz, the
listed path crawl-data/CC-1.warc.gz is not scheduled. -/
theorem c3_resume_witness :
    "crawl-data/CC-1.warc.gz".data ∉
      scheduledPaths ["CC-1.wrc.gz".data]
        ["crawl-data/CC-1.warc.gz".data, "crawl-data/CC-2.warc.gz".data] :=
  (c3_resume_skip ["CC-1.wrc.gz".data]
    ["crawl-data/CC-1.warc.gz".data, "crawl-data/CC-2.warc.gz".data]
    "crawl-data/CC-1.warc.gz".data (by decide)).1

/-- C9: per-path download failure isolation.  When the download of path
p fails (transport failure or non-success HTTP status), the run
produces exactly the tasks of the path list with p removed — every
other path is downloaded and parsed as before, and the overall run is
not terminated (first conjunct) — and, as long as no other listed path
maps to the same save name, nothing derived from p is ever handed to a
parse worker, so p cannot be marked complete this run (second
conjunct). -/
theorem c9_download_isolation (ledger paths : List (List Char))
    (dl : List Char → Option (List Char)) (p : List Char)
    (hfail : dl p = none)
    (hinj : ∀ q ∈ paths, saveName q = saveName p → q = p) :
    tasksOf ledger dl paths = tasksOf ledger dl (paths.filter (fun q => q ≠ p)) ∧
    saveName p ∉ (tasksOf ledger dl paths).map Prod.snd := by
  constructor
  · induction paths with
    | nil => rfl
    | cons q qs ih =>
      have ihq := ih (fun x hx hs => hinj x (List.mem_cons_of_mem _ hx) hs)
      by_cases hq : q = p
      · subst hq
        simp only [tasksOf, List.filter_cons, List.filterMap_cons, hfail]
        by_cases hc : ledgerHas ledger (saveName q) = true
        · simp only [hc, if_true]
          simpa [tasksOf] using ihq
        · simp only [Bool.not_eq_true] at hc
          simp only [hc, Option.map_none]
          have h1 : (decide (q ≠ q)) = true → False := by simp
          simp only [decide_not, decide_eq_true_eq]
          simpa [tasksOf] using ihq
      · simp only [tasksOf, List.filter_cons, List.filterMap_cons]
        have : (decide (q ≠ p)) = true := by simp [hq]
        rw [this]
        simp only [if_true, List.filterMap_cons]
        by_cases hc : ledgerHas ledger (saveName q) = true
        · simp only [hc, if_true]
          simpa [tasksOf] using ihq
        · simp only [Bool.not_eq_true] at hc
          simp only [hc]
          cases dl q with
          | none => simpa [tasksOf] using ihq
          | some l =>
            simp only [Option.map_some']
            have := ihq
            simp only [tasksOf] at this
            rw [this]
  · intro hmem
    rw [List.mem_map] at hmem
    obtain ⟨t, ht, hts⟩ := hmem
    rw [tasksOf, List.mem_filterMap] at ht
    obtain ⟨q, hq, hfq⟩ := ht
    by_cases hc : ledgerHas ledger (saveName q) = true
    · rw [hc] at hfq; simp at hfq
    · simp only [Bool.not_eq_true] at hc
      rw [hc] at hfq
      simp only [if_false, Bool.false_eq_true] at hfq
      cases hdl : dl q with
      | none => rw [hdl] at hfq; simp at hfq
      | some l =>
        rw [hdl] at hfq
        simp only [Option.map_some', Option.some.injEq] at hfq
        have hsnd : t.2 = saveName q := by rw [← hfq]
        have : q = p := hinj q hq (by rw [← hsnd, hts])
        rw [this] at hdl
        rw [hfail] at hdl
        exact Option.noConfusion hdl

/-- Witness for c9_download_isolation: with an empty ledger, a failing
download for CC-1 leaves exactly the task list of the remaining path. -/
theorem c9_download_witness :
    tasksOf []
      (fun q => if q = "crawl-data/CC-1.warc.gz".data then none else some ("tmp".data ++ q))
      ["crawl-data/CC-1.warc.gz".data, "crawl-data/CC-2.warc.gz".data] =
    tasksOf []
      (fun q => if q = "crawl-data/CC-1.warc.gz".data then none else some ("tmp".data ++ q))
      (["crawl-data/CC-1.warc.gz".data, "crawl-data/CC-2.warc.gz".data].filter
        (fun q => q ≠ "crawl-data/CC-1.warc.gz".data)) :=
  (c9_download_isolation []
    ["crawl-data/CC-1.warc.gz".data, "crawl-data/CC-2.warc.gz".data]
    (fun q => if q = "crawl-data/CC-1.warc.gz".data then none else some ("tmp".data ++ q))
    "crawl-data/CC-1.warc.gz".data (by decide) (by decide)).1

/-- A synthetic WARC record: its type, target URI and raw HTTP body. -/
structure WRecord where
  typ : List Char
  uri : List Char
  body : List Char

/-- The three header lines the pipeline reads from a record. -/
def headerLinesOf (r : WRecord) : List (List Char) :=
  ["WARC-Type: ".data ++ r.typ,
   "WARC-Target-URI: ".data ++ r.uri,
   "Content-Length: ".data ++ decChars r.body.length]

/-- Serialize header lines, each terminated by a carriage return and
newline pair. -/
def encodeLines (ls : List (List Char)) : List Char :=
  ls.foldr (fun l acc => l ++ '\r' :: '\n' :: acc) []

/-- The byte rendering of one record: header lines, a blank line, then
exactly Content-Length body bytes. -/
def renderRec (r : WRecord) : List Char :=
  encodeLines (headerLinesOf r) ++ '\r' :: '\n' :: r.body

/-- A stream of directly concatenated records. -/
def renderRecs (recs : List WRecord) : List Char :=
  recs.foldr (fun r acc => renderRec r ++ acc) []

/-- Well-formedness of a synthetic record: the type and target URI are
single header values (no carriage return or newline) stable under
TrimSpace. -/
def wfRec (r : WRecord) : Prop :=
  (∀ c ∈ r.typ, c ≠ '\n' ∧ c ≠ '\r') ∧ (∀ c ∈ r.uri, c ≠ '\n' ∧ c ≠ '\r') ∧
  goTrimSpace r.typ = r.typ ∧ goTrimSpace r.uri = r.uri

instance wfRecDec (r : WRecord) : Decidable (wfRec r) := by
  unfold wfRec
  infer_instance

/-- The jobs the read loop should produce: one per response record. -/
def jobsOf (recs : List WRecord) : List Job :=
  recs.filterMap (fun r =>
    if r.typ = responseVal then some (Job.mk r.uri r.body) else none)

theorem dropWhile_all_false (p : Char → Bool) :
    ∀ m : List Char, (∀ c ∈ m, p c = false) → m.dropWhile p = m := by
  intro m hm
  induction m with
  | nil => rfl
  | cons c rest ih =>
    rw [List.dropWhile_cons]
    rw [hm c (List.mem_cons_self _ _)]
    simp

theorem goTrimSpace_of_no_space (l : List Char)
    (h : ∀ c ∈ l, isUniSpace c = false) : goTrimSpace l = l := by
  rw [goTrimSpace, dropWhile_all_false _ l h, dropRightWhile,
    dropWhile_all_false _ l.reverse (fun c hc => h c (List.mem_reverse.mp hc))]
  simp

theorem goTrimSpace_decChars (n : Nat) : goTrimSpace (decChars n) = decChars n := by
  apply goTrimSpace_of_no_space
  intro c hc
  have := decChars_all_digits n c hc
  simp only [isDigitChar, Bool.and_eq_true, decide_eq_true_eq] at this
  simp only [isUniSpace]
  have h1 : c.toNat ≠ 32 ∧ c.toNat ≠ 9 ∧ c.toNat ≠ 10 ∧ c.toNat ≠ 11 ∧ c.toNat ≠ 12 ∧
      c.toNat ≠ 13 ∧ c.toNat ≠ 133 ∧ c.toNat ≠ 160 := by omega
  simp only [Bool.or_eq_false_iff]
  refine ⟨⟨⟨⟨⟨⟨⟨?_, ?_⟩, ?_⟩, ?_⟩, ?_⟩, ?_⟩, ?_⟩, ?_⟩ <;>
    (simp only [decide_eq_false_iff_not]; intro hEq; apply_fun Char.toNat at hEq; revert hEq)
  · exact h1.1
  · exact h1.2.1
  · exact h1.2.2.1
  · exact h1.2.2.2.1
  · exact h1.2.2.2.2.1
  · exact h1.2.2.2.2.2.1
  · exact h1.2.2.2.2.2.2.1
  · exact h1.2.2.2.2.2.2.2

theorem goTrimSpace_space_cons (l : List Char) (h : goTrimSpace l = l) :
    goTrimSpace (' ' :: l) = l := by
  rw [goTrimSpace, List.dropWhile_cons]
  have : isUniSpace ' ' = true := by decide
  rw [this]
  simp only [if_true]
  exact h

theorem trimRightCRLF_noCRLF (l : List Char)
    (h : ∀ c ∈ l, c ≠ '\r' ∧ c ≠ '\n') : trimRightCRLF (l ++ ['\r']) = l := by
  rw [trimRightCRLF, dropRightWhile, List.reverse_append]
  have h0 : (['\r'] : List Char).reverse ++ l.reverse = '\r' :: l.reverse := by simp
  rw [h0, List.dropWhile_cons, if_pos (by decide)]
  rw [dropWhile_all_false _ l.reverse ?_, List.reverse_reverse]
  intro c hc
  have := h c (List.mem_reverse.mp hc)
  simp [this.1, this.2]

theorem readHeaderBlock_encode :
    ∀ (ls : List (List Char)) (rest : List Char) (fuel : Nat),
      (∀ l ∈ ls, (∀ c ∈ l, c ≠ '\r' ∧ c ≠ '\n') ∧ l ≠ []) → ls.length < fuel →
      readHeaderBlock fuel (encodeLines ls ++ '\r' :: '\n' :: rest) = some (ls, rest) := by
  intro ls
  induction ls with
  | nil =>
    intro rest fuel _ hf
    cases fuel with
    | zero => omega
    | succ f =>
      have henc : encodeLines [] ++ '\r' :: '\n' :: rest = '\r' :: '\n' :: rest := rfl
      rw [henc]
      have h1 : readLineRaw ('\r' :: '\n' :: rest) = some (['\r'], rest) := by
        simp [readLineRaw]
      simp only [readHeaderBlock, h1]
      have h2 : trimRightCRLF ['\r'] = [] := by decide
      simp [h2]
  | cons l ls ih =>
    intro rest fuel hl hf
    cases fuel with
    | zero => omega
    | succ f =>
      have hassoc : encodeLines (l :: ls) ++ '\r' :: '\n' :: rest =
          (l ++ ['\r']) ++ '\n' :: (encodeLines ls ++ '\r' :: '\n' :: rest) := by
        show (l ++ '\r' :: '\n' :: encodeLines ls) ++ '\r' :: '\n' :: rest = _
        simp
      rw [hassoc]
      have hnl : '\n' ∉ l ++ ['\r'] := by
        intro hmem
        rcases List.mem_append.mp hmem with hm | hm
        · exact ((hl l (List.mem_cons_self _ _)).1 '\n' hm).2 rfl
        · simp at hm
      have h1 := readLineRaw_append (l ++ ['\r'])
        (encodeLines ls ++ '\r' :: '\n' :: rest) hnl
      simp only [readHeaderBlock, h1]
      have h2 : trimRightCRLF (l ++ ['\r']) = l :=
        trimRightCRLF_noCRLF l (hl l (List.mem_cons_self _ _)).1
      rw [h2]
      have h3 : l ≠ [] := (hl l (List.mem_cons_self _ _)).2
      simp only [h3, if_false]
      rw [ih rest f
        (fun x hx => hl x (List.mem_cons_of_mem _ hx))
        (by simp only [List.length_cons] at hf; omega)]
      rfl

theorem breakAtColon_append (k v : List Char) (h : ':' ∉ k) :
    breakAtColon (k ++ ':' :: v) = some (k, v) := by
  induction k with
  | nil => simp [breakAtColon]
  | cons c cs ih =>
    have hc : c ≠ ':' := fun hEq => h (hEq ▸ List.mem_cons_self c cs)
    have hcs : ':' ∉ cs := fun hm => h (List.mem_cons_of_mem c hm)
    simp [breakAtColon, hc, ih hcs]

theorem parseHeaderLine_kv (k v : List Char) (hk : ':' ∉ k)
    (hkt : goTrimSpace k = k) (hvt : goTrimSpace v = v) :
    parseHeaderLine (k ++ ':' :: ' ' :: v) = some (k, v) := by
  rw [parseHeaderLine, breakAtColon_append k (' ' :: v) hk]
  simp only [Option.map_some']
  rw [hkt, goTrimSpace_space_cons v hvt]

theorem headerGet_record (r : WRecord) (hwf : wfRec r) :
    headerGet (headerLinesOf r) keyWarcType = r.typ ∧
    headerGet (headerLinesOf r) keyWarcTargetURI = r.uri ∧
    headerGet (headerLinesOf r) keyContentLength = decChars r.body.length := by
  obtain ⟨_, _, htt, hut⟩ := hwf
  have s1 : "WARC-Type: ".data ++ r.typ = keyWarcType ++ ':' :: ' ' :: r.typ := by
    have : "WARC-Type: ".data = keyWarcType ++ [':', ' '] := by decide
    rw [this]
    simp
  have s2 : "WARC-Target-URI: ".data ++ r.uri = keyWarcTargetURI ++ ':' :: ' ' :: r.uri := by
    have : "WARC-Target-URI: ".data = keyWarcTargetURI ++ [':', ' '] := by decide
    rw [this]
    simp
  have s3 : "Content-Length: ".data ++ decChars r.body.length =
      keyContentLength ++ ':' :: ' ' :: decChars r.body.length := by
    have : "Content-Length: ".data = keyContentLength ++ [':', ' '] := by decide
    rw [this]
    simp
  have e1 : parseHeaderLine ("WARC-Type: ".data ++ r.typ) = some (keyWarcType, r.typ) := by
    rw [s1]
    exact parseHeaderLine_kv keyWarcType r.typ (by decide) (by decide) htt
  have e2 : parseHeaderLine ("WARC-Target-URI: ".data ++ r.uri) =
      some (keyWarcTargetURI, r.uri) := by
    rw [s2]
    exact parseHeaderLine_kv keyWarcTargetURI r.uri (by decide) (by decide) hut
  have e3 : parseHeaderLine ("Content-Length: ".data ++ decChars r.body.length) =
      some (keyContentLength, decChars r.body.length) := by
    rw [s3]
    exact parseHeaderLine_kv keyContentLength (decChars r.body.length) (by decide) (by decide)
      (goTrimSpace_decChars _)
  have hexp : headerLinesOf r =
      ["WARC-Type: ".data ++ r.typ, "WARC-Target-URI: ".data ++ r.uri,
       "Content-Length: ".data ++ decChars r.body.length] := rfl
  have hfm : (headerLinesOf r).filterMap parseHeaderLine =
      [(keyWarcType, r.typ), (keyWarcTargetURI, r.uri),
       (keyContentLength, decChars r.body.length)] := by
    rw [hexp, List.filterMap_cons_some e1, List.filterMap_cons_some e2,
      List.filterMap_cons_some e3, List.filterMap_nil]
  have n1 : ¬ (keyWarcTargetURI = keyWarcType) := by decide
  have n2 : ¬ (keyContentLength = keyWarcType) := by decide
  have n3 : ¬ (keyWarcType = keyWarcTargetURI) := by decide
  have n4 : ¬ (keyContentLength = keyWarcTargetURI) := by decide
  have n5 : ¬ (keyWarcType = keyContentLength) := by decide
  have n6 : ¬ (keyWarcTargetURI = keyContentLength) := by decide
  refine ⟨?_, ?_, ?_⟩
  · rw [headerGet, hfm]
    simp [n1, n2]
  · rw [headerGet, hfm]
    simp [n3, n4]
  · rw [headerGet, hfm]
    simp [n5, n6]

theorem encodeLines_length (ls : List (List Char)) :
    (encodeLines ls).length = (ls.map List.length).sum + 2 * ls.length := by
  induction ls with
  | nil => rfl
  | cons l rest ih =>
    have : encodeLines (l :: rest) = l ++ '\r' :: '\n' :: encodeLines rest := rfl
    rw [this]
    simp only [List.length_append, List.length_cons, List.map_cons, List.sum_cons, ih]
    omega

theorem headerLines_ok (r : WRecord) (hwf : wfRec r) :
    ∀ l ∈ headerLinesOf r, (∀ c ∈ l, c ≠ '\r' ∧ c ≠ '\n') ∧ l ≠ [] := by
  obtain ⟨ht, hu, _, _⟩ := hwf
  intro l hl
  have key_ok : ∀ (k : String), (∀ c ∈ k.data, c ≠ '\r' ∧ c ≠ '\n') →
      k.data ≠ [] → ∀ (v : List Char), (∀ c ∈ v, c ≠ '\n' ∧ c ≠ '\r') →
      (∀ c ∈ k.data ++ v, c ≠ '\r' ∧ c ≠ '\n') ∧ k.data ++ v ≠ [] := by
    intro k hk hkne v hv
    constructor
    · intro c hc
      rcases List.mem_append.mp hc with hm | hm
      · exact hk c hm
      · exact ⟨(hv c hm).2, (hv c hm).1⟩
    · intro hEq
      exact hkne (List.append_eq_nil.mp hEq).1
  simp only [headerLinesOf, List.mem_cons, List.not_mem_nil, or_false] at hl
  rcases hl with rfl | rfl | rfl
  · exact key_ok "WARC-Type: " (by decide) (by decide) r.typ ht
  · exact key_ok "WARC-Target-URI: " (by decide) (by decide) r.uri hu
  · refine key_ok "Content-Length: " (by decide) (by decide) (decChars r.body.length) ?_
    intro c hc
    have := decChars_all_digits r.body.length c hc
    constructor <;> (intro hEq; rw [hEq] at this; simp [isDigitChar] at this)

theorem parseLoop_step (r : WRecord) (rest : List Char) (acc : List Job) (fuel : Nat)
    (hwf : wfRec r) :
    parseLoop (fuel + 1) (renderRec r ++ rest) acc =
      parseLoop fuel rest
        (if r.typ = responseVal then Job.mk r.uri r.body :: acc else acc) := by
  have hdata : renderRec r ++ rest =
      encodeLines (headerLinesOf r) ++ '\r' :: '\n' :: (r.body ++ rest) := by
    simp [renderRec]
  have hbound : (headerLinesOf r).length <
      (renderRec r ++ rest).length + 1 := by
    rw [hdata]
    simp only [List.length_append, List.length_cons, encodeLines_length]
    have : (headerLinesOf r).length = 3 := rfl
    omega
  have hread : readHeaderBlock ((renderRec r ++ rest).length + 1) (renderRec r ++ rest) =
      some (headerLinesOf r, r.body ++ rest) := by
    rw [hdata] at hbound ⊢
    exact readHeaderBlock_encode (headerLinesOf r) (r.body ++ rest) _
      (headerLines_ok r hwf) hbound
  obtain ⟨g1, g2, g3⟩ := headerGet_record r hwf
  simp only [parseLoop, hread, g1, g2, g3]
  by_cases hty : r.typ = responseVal
  · rw [if_neg (by simp [hty]), if_pos hty]
    rw [atoiZ_decChars]
    rw [if_neg (by exact Int.not_lt.mpr (Int.natCast_nonneg _))]
    rw [Int.toNat_natCast]
    rw [if_neg (by simp)]
    rw [List.take_left, List.drop_left]
  · rw [if_pos (by simp [hty]), if_neg hty]
    rw [atoiZ_decChars, Int.toNat_natCast, List.drop_left]

theorem renderRec_length_pos (r : WRecord) : 0 < (renderRec r).length := by
  rw [renderRec]
  simp

theorem renderRecs_length_ge (recs : List WRecord) :
    recs.length ≤ (renderRecs recs).length := by
  induction recs with
  | nil => simp [renderRecs]
  | cons r rs ih =>
    have : renderRecs (r :: rs) = renderRec r ++ renderRecs rs := rfl
    rw [this]
    simp only [List.length_append, List.length_cons]
    have := renderRec_length_pos r
    omega

theorem parseLoop_renderRecs :
    ∀ (recs : List WRecord) (fuel : Nat) (acc : List Job),
      (∀ r ∈ recs, wfRec r) → recs.length < fuel →
      parseLoop fuel (renderRecs recs) acc = some (acc.reverse ++ jobsOf recs, true) := by
  intro recs
  induction recs with
  | nil =>
    intro fuel acc _ hf
    cases fuel with
    | zero => omega
    | succ f =>
      have h0 : renderRecs [] = [] := rfl
      rw [h0]
      simp [parseLoop, readHeaderBlock, readLineRaw, jobsOf]
  | cons r rs ih =>
    intro fuel acc hwf hf
    cases fuel with
    | zero => omega
    | succ f =>
      have hr : renderRecs (r :: rs) = renderRec r ++ renderRecs rs := rfl
      rw [hr, parseLoop_step r _ acc f (hwf r (List.mem_cons_self _ _))]
      rw [ih f _ (fun x hx => hwf x (List.mem_cons_of_mem _ hx))
        (by simp only [List.length_cons] at hf; omega)]
      by_cases hty : r.typ = responseVal
      · simp [hty, jobsOf, List.filterMap_cons]
      · simp [hty, jobsOf, List.filterMap_cons]

theorem filterMap_length_of_all_some {α β : Type} (f : α → Option β) :
    ∀ l : List α, (∀ x ∈ l, (f x).isSome = true) → (l.filterMap f).length = l.length := by
  intro l hl
  induction l with
  | nil => rfl
  | cons x xs ih =>
    have hx := hl x (List.mem_cons_self _ _)
    rw [List.filterMap_cons]
    cases hfx : f x with
    | none => rw [hfx] at hx; simp at hx
    | some y =>
      simp only [List.length_cons]
      rw [ih (fun z hz => hl z (List.mem_cons_of_mem _ hz))]

theorem jobsOf_length (recs : List WRecord) :
    (jobsOf recs).length = (recs.filter (fun r => r.typ = responseVal)).length := by
  induction recs with
  | nil => rfl
  | cons r rs ih =>
    by_cases hty : r.typ = responseVal
    · simp [jobsOf, List.filterMap_cons, List.filter_cons, hty] at *
      omega
    · simp [jobsOf, List.filterMap_cons, List.filter_cons, hty] at *
      exact ih

/-- C4: type filtering.  For a stream of well-formed interleaved
records, the read loop of parseWarc hands exactly one job downstream
per record of WARC-Type response (first conjunct; non-response records
are consumed by skipping exactly Content-Length bytes, never read into
a buffer), the number of jobs equals the number of response records
(second conjunct), and whenever every response body is processable by
the clean workers (boundary found, cleaning succeeds), the number of
written output entries equals the number of response records (third
conjunct). -/
theorem c4_type_filter (recs : List WRecord) (e : Bool)
    (hwf : ∀ r ∈ recs, wfRec r) :
    parseWarcModel (GoStream.mk (renderRecs recs) e) = some (jobsOf recs, true) ∧
    (jobsOf recs).length = (recs.filter (fun r => r.typ = responseVal)).length ∧
    ∀ cleanFn : List Char → Option (List Char),
      (∀ r ∈ recs, r.typ = responseVal →
        (processJob cleanFn (Job.mk r.uri r.body)).isSome = true) →
      (entriesOf cleanFn (jobsOf recs)).length =
        (recs.filter (fun r => r.typ = responseVal)).length := by
  refine ⟨?_, jobsOf_length recs, ?_⟩
  · rw [parseWarcModel]
    have := parseLoop_renderRecs recs ((renderRecs recs).length + 1) []
      hwf (Nat.lt_succ_of_le (renderRecs_length_ge recs))
    simpa using this
  · intro cleanFn hclean
    rw [entriesOf, filterMap_length_of_all_some _ (jobsOf recs) ?_, jobsOf_length]
    intro j hj
    rw [jobsOf, List.mem_filterMap] at hj
    obtain ⟨r, hr, hjr⟩ := hj
    by_cases hty : r.typ = responseVal
    · rw [if_pos hty] at hjr
      have : j = Job.mk r.uri r.body := by
        exact (Option.some.injEq _ _).mp hjr.symm
      rw [this]
      exact hclean r hr hty
    · rw [if_neg hty] at hjr
      exact Option.noConfusion hjr

/-- Witness for c4_type_filter: one request record and one response
record; the response body contains a boundary and cleaning is the
identity, so exactly one entry is produced. -/
theorem c4_type_filter_witness :
    (entriesOf (fun b => some b)
      (jobsOf [WRecord.mk "request".data "u1".data "abc".data,
               WRecord.mk "response".data "u2".data "X\r\n\r\nHi".data])).length =
    ([WRecord.mk "request".data "u1".data "abc".data,
      WRecord.mk "response".data "u2".data "X\r\n\r\nHi".data].filter
        (fun r => r.typ = responseVal)).length :=
  (c4_type_filter
    [WRecord.mk "request".data "u1".data "abc".data,
     WRecord.mk "response".data "u2".data "X\r\n\r\nHi".data] false
    (by decide)).2.2 (fun b => some b) (by decide)

/-- The remove_selectors configuration of CommonCrawl. -/
structure RemoveSelectors where
  tags : List (List Char)
  classes : List (List Char)
  classKeywords : List (List Char)
  attributes : List (List Char)

mutual
/-- A parsed HTML node: an element with tag name, attributes and
children, or a text node.  Comment nodes do not occur: CleanHTML
strips comments before parsing. -/
inductive HNode where
  | elem (name : List Char) (attrs : List (List Char × List Char)) (children : HForest)
  | text (s : List Char)
/-- A sequence of sibling nodes. -/
inductive HForest where
  | nil
  | cons (h : HNode) (t : HForest)
end

/-- Membership of a node among siblings. -/
def forestMem (n : HNode) : HForest → Prop
  | HForest.nil => False
  | HForest.cons h t => n = h ∨ forestMem n t

/-- Models strings.ToLower on the ASCII range (the range the
configuration and HTML tag and attribute names use). -/
def toLowerStr (l : List Char) : List Char := l.map Char.toLower

/-- Models strings.Fields: the maximal runs of non-whitespace. -/
def goFields (l : List Char) : List (List Char) :=
  let p := l.foldr (fun c acc =>
    if isUniSpace c then
      (if acc.2 = ([] : List Char) then acc.1 else acc.2 :: acc.1, ([] : List Char))
    else (acc.1, c :: acc.2)) ([], [])
  if p.2 = [] then p.1 else p.2 :: p.1

/-- containsAnyKeyword of pkg/crowl/commoncrawl.go (lines 541-561): a
keyword starting with a caret matches as a prefix of the class name, a
keyword ending with a dollar sign as a suffix, any other keyword as a
substring. -/
def containsAnyKeyword (className : List Char) (keywords : List (List Char)) : Bool :=
  keywords.any (fun keyword =>
    if "^".data.isPrefixOf keyword then
      (keyword.drop 1).isPrefixOf className
    else if "$".data.isSuffixOf keyword then
      (keyword.take (keyword.length - 1)).isSuffixOf className
    else (indexOfSub className keyword).isSome)

/-- Models goquery Attr: the value of the first attribute with the
given key. -/
def attrFirst : List (List Char × List Char) → List Char → Option (List Char)
  | [], _ => none
  | a :: rest, key => if a.1 = key then some a.2 else attrFirst rest key

/-- The tag-removal test of CleanHTML: the lowercased node name is in
the set of lowercased configured tags. -/
def tagMatch (cfg : RemoveSelectors) (name : List Char) : Bool :=
  cfg.tags.any (fun t => toLowerStr name == toLowerStr t)

/-- The class test of CleanHTML: some whitespace-separated class of the
class attribute, lowercased, is a configured class exactly or matches a
configured keyword. -/
def classMatches (cfg : RemoveSelectors) (attrs : List (List Char × List Char)) : Bool :=
  match attrFirst attrs "class".data with
  | none => false
  | some cv =>
    (goFields cv).any (fun cls =>
      cfg.classes.any (fun c => toLowerStr cls == toLowerStr c) ||
      containsAnyKeyword (toLowerStr cls) cfg.classKeywords)

/-- The class-based removal decision of CleanHTML (lines 473-483):
remove when a class matches, unless the element is named body. -/
def removeByClass (cfg : RemoveSelectors) (name : List Char)
    (attrs : List (List Char × List Char)) : Bool :=
  !(name == "body".data) && classMatches cfg attrs

/-- The attribute-stripping test of CleanHTML (lines 486-510): the
lowercased key starts with data-, area-, on or item, or equals a
configured attribute case-insensitively. -/
def stripAttrPred (cfg : RemoveSelectors) (key : List Char) : Bool :=
  let kl := toLowerStr key
  "data-".data.isPrefixOf kl || "area-".data.isPrefixOf kl ||
  "on".data.isPrefixOf kl || "item".data.isPrefixOf kl ||
  cfg.attributes.any (fun a => kl == toLowerStr a)

mutual
/-- The effect on the parsed tree of the single Find-all traversal of
CleanHTML: an element whose tag matches is removed with its whole
subtree; otherwise an element (except one named body) whose class
matches is removed with its whole subtree; a kept element loses the
attributes matching stripAttrPred; text is untouched.  The removal
decisions depend only on the node itself, so the flat document-order
traversal of the Go code and this structural recursion produce the
same final tree. -/
def cleanTree (cfg : RemoveSelectors) : HNode → Option HNode
  | HNode.text s => some (HNode.text s)
  | HNode.elem name attrs children =>
    if tagMatch cfg name then none
    else if removeByClass cfg name attrs then none
    else some (HNode.elem name
      (attrs.filter (fun a => !stripAttrPred cfg a.1))
      (cleanForest cfg children))

/-- cleanTree applied to each sibling, dropping the removed ones. -/
def cleanForest (cfg : RemoveSelectors) : HForest → HForest
  | HForest.nil => HForest.nil
  | HForest.cons h t =>
    match cleanTree cfg h with
    | none => cleanForest cfg t
    | some h2 => HForest.cons h2 (cleanForest cfg t)
end

/-- The escaping of net/html applied by Render to text and attribute
values. -/
def escapeChar (c : Char) : List Char :=
  if c = '&' then "&amp;".data
  else if c = '\'' then "&#39;".data
  else if c = '<' then "&lt;".data
  else if c = '>' then "&gt;".data
  else if c = '"' then "&#34;".data
  else if c = '\r' then "&#13;".data
  else [c]

def escapeText (l : List Char) : List Char := (l.map escapeChar).flatten

/-- Attribute rendering of net/html Render: space, key, equals, quoted
escaped value. -/
def renderAttrs (attrs : List (List Char × List Char)) : List Char :=
  attrs.foldr (fun a acc =>
    ' ' :: (a.1 ++ '=' :: '"' :: (escapeText a.2 ++ '"' :: acc))) []

/-- The void elements of HTML, which Render writes self-closing. -/
def voidElems : List (List Char) :=
  ["area".data, "base".data, "br".data, "col".data, "embed".data, "hr".data,
   "img".data, "input".data, "link".data, "meta".data, "param".data,
   "source".data, "track".data, "wbr".data]

mutual
/-- Models net/html Render on one node. -/
def renderNode : HNode → List Char
  | HNode.text s => escapeText s
  | HNode.elem name attrs children =>
    if voidElems.contains name then
      '<' :: (name ++ renderAttrs attrs ++ '/' :: '>' :: [])
    else
      '<' :: (name ++ renderAttrs attrs ++ '>' ::
        (renderForest children ++ '<' :: '/' :: (name ++ ['>'])))

/-- Models goquery Html on a document: render every child of the root
in order. -/
def renderForest : HForest → List Char
  | HForest.nil => []
  | HForest.cons h t => renderNode h ++ renderForest t
end

/-- Helper of cleanSpaces: collapse each run of regexp whitespace to a
single space (the flag records whether the previous byte was part of a
run). -/
def collapseAux : Bool → List Char → List Char
  | _, [] => []
  | prevSpace, c :: rest =>
    if isReSpace c then
      if prevSpace then collapseAux true rest else ' ' :: collapseAux true rest
    else c :: collapseAux false rest

/-- cleanSpaces of pkg/crowl/commoncrawl.go (lines 526-532): collapse
whitespace runs, then TrimSpace. -/
def cleanSpacesModel (l : List Char) : List Char :=
  goTrimSpace (collapseAux false l)

/-- The comment-stripping regexp of CleanHTML: repeatedly delete the
leftmost complete comment (open marker up to the nearest close marker);
an unterminated open marker matches nothing. -/
def stripCommentsAux : Nat → List Char → List Char
  | 0, l => l
  | fuel + 1, l =>
    match indexOfSub l "<!--".data with
    | none => l
    | some i =>
      let after := l.drop (i + 4)
      match indexOfSub after "-->".data with
      | none => l
      | some j => l.take i ++ stripCommentsAux fuel (after.drop (j + 3))

def stripComments (l : List Char) : List Char := stripCommentsAux (l.length + 1) l

/-- CleanHTML of pkg/crowl/commoncrawl.go (lines 440-523), with the
HTML parser of goquery/net-html passed in as a function from bytes to
the children of the document root: strip comments, parse, run the
removal/stripping traversal, serialize the document, clean spaces. -/
def cleanHTML (cfg : RemoveSelectors) (parse : List Char → HForest)
    (raw : List Char) : List Char :=
  cleanSpacesModel (renderForest (cleanForest cfg (parse (stripComments raw))))

/-- The empty removal configuration: no tags, classes, keywords or
attributes configured. -/
def emptyCfg : RemoveSelectors := RemoveSelectors.mk [] [] [] []

/-- The parse tree net/html produces for the scenario body: the WHATWG
parsing algorithm always builds the html, head, body skeleton around
the content, so the markup html-body-Hi parses to a document whose
single root child is an html element containing an empty head and a
body with the text Hi. -/
def docHi : HForest :=
  HForest.cons
    (HNode.elem "html".data []
      (HForest.cons (HNode.elem "head".data [] HForest.nil)
        (HForest.cons (HNode.elem "body".data []
          (HForest.cons (HNode.text "Hi".data) HForest.nil)) HForest.nil)))
    HForest.nil

/-- The HTML parser restricted to the concrete scenario input: it
returns the net/html parse tree of the scenario body. -/
def parseHi : List Char → HForest := fun _ => docHi

/-- The HTTP payload of the scenario record: a header stub, the
four-byte separator, and the scenario markup. -/
def scenarioBody : List Char := "<html><body>Hi</body></html>".data

def scenarioHTTP : List Char :=
  "HTTP/1.1 200 OK\r\nContent-Type: text/html\r\n\r\n".data ++ scenarioBody

def scenarioRecord : WRecord :=
  WRecord.mk "response".data "http://x.test/a".data scenarioHTTP

/-- The clean step of the scenario pipeline: CleanHTML with the empty
configuration and the scenario parse. -/
def scenarioCleanFn : List Char → Option (List Char) :=
  fun b => some (cleanHTML emptyCfg parseHi b)

set_option maxRecDepth 100000 in
/-- C6 counterexample: on the concrete scenario record the cleaning
step does not produce the bare text Hi — goquery Html serializes the
whole parsed document, html, head and body tags included — and the
pipeline does not write the claimed entry with length field 2. -/
theorem c6_counterexample :
    cleanHTML emptyCfg parseHi scenarioBody ≠ "Hi".data ∧
    (parseWarcModel (GoStream.mk (renderRecs [scenarioRecord]) false)).map
        (fun p => writeAll (entriesOf scenarioCleanFn p.1)) ≠
      some "http://x.test/a\n2\nHi\n\n".data := by
  decide

set_option maxRecDepth 100000 in
/-- C6 amended: processing the scenario response record through the
read loop, the clean worker and writeWRC produces the cleaned body
html-head-body-Hi serialization (41 bytes) and exactly the entry url,
newline, 41, newline, that serialization, two newlines. -/
theorem c6_scenario_entry :
    cleanHTML emptyCfg parseHi scenarioBody =
      "<html><head></head><body>Hi</body></html>".data ∧
    (parseWarcModel (GoStream.mk (renderRecs [scenarioRecord]) false)).map
        (fun p => writeAll (entriesOf scenarioCleanFn p.1)) =
      some "http://x.test/a\n41\n<html><head></head><body>Hi</body></html>\n\n".data := by
  decide

/-- sub occurs in t: it is t itself or occurs in a child of t. -/
inductive Subtree : HNode → HNode → Prop where
  | refl (t : HNode) : Subtree t t
  | step (sub c : HNode) (name : List Char) (attrs : List (List Char × List Char))
      (children : HForest) :
      forestMem c children → Subtree sub c →
      Subtree sub (HNode.elem name attrs children)

theorem cleanForest_mem (cfg : RemoveSelectors) :
    ∀ (ts : HForest) (c : HNode), forestMem c (cleanForest cfg ts) →
      ∃ c1, forestMem c1 ts ∧ cleanTree cfg c1 = some c
  | HForest.nil, c, hc => absurd hc (by rw [cleanForest]; exact id)
  | HForest.cons h t, c, hc => by
    rw [cleanForest] at hc
    cases hh : cleanTree cfg h with
    | none =>
      rw [hh] at hc
      obtain ⟨c1, hc1, hcc⟩ := cleanForest_mem cfg t c hc
      exact ⟨c1, Or.inr hc1, hcc⟩
    | some h2 =>
      rw [hh] at hc
      rw [forestMem] at hc
      rcases hc with rfl | hc
      · exact ⟨h, Or.inl rfl, hh⟩
      · obtain ⟨c1, hc1, hcc⟩ := cleanForest_mem cfg t c hc
        exact ⟨c1, Or.inr hc1, hcc⟩

theorem attrFirst_filter (p : List Char × List Char → Bool)
    (key : List Char) (hp : ∀ a : List Char × List Char, a.1 = key → p a = true) :
    ∀ attrs, attrFirst (attrs.filter p) key = attrFirst attrs key := by
  intro attrs
  induction attrs with
  | nil => rfl
  | cons a rest ih =>
    by_cases hk : a.1 = key
    · rw [List.filter_cons, hp a hk]
      simp only [if_true, attrFirst, hk]
    · rw [List.filter_cons]
      cases hpa : p a with
      | false =>
        simp only [Bool.false_eq_true, if_false, attrFirst, hk]
        rw [ih]
      | true =>
        simp only [if_true, attrFirst, hk]
        rw [ih]

theorem stripAttrPred_class (cfg : RemoveSelectors)
    (hclass : ∀ a ∈ cfg.attributes, toLowerStr a ≠ "class".data) :
    stripAttrPred cfg "class".data = false := by
  rw [stripAttrPred]
  have h1 : toLowerStr "class".data = "class".data := by decide
  rw [h1]
  have h2 : "data-".data.isPrefixOf "class".data = false := by decide
  have h3 : "area-".data.isPrefixOf "class".data = false := by decide
  have h4 : "on".data.isPrefixOf "class".data = false := by decide
  have h5 : "item".data.isPrefixOf "class".data = false := by decide
  rw [h2, h3, h4, h5]
  simp only [Bool.false_or]
  rw [List.any_eq_false]
  intro a ha
  cases hq : ("class".data == toLowerStr a) with
  | false => simp
  | true => exact absurd (beq_iff_eq.mp hq).symm (hclass a ha)

theorem classMatches_filter (cfg : RemoveSelectors)
    (hclass : ∀ a ∈ cfg.attributes, toLowerStr a ≠ "class".data)
    (attrs : List (List Char × List Char)) :
    classMatches cfg (attrs.filter (fun a => !stripAttrPred cfg a.1)) =
      classMatches cfg attrs := by
  rw [classMatches, classMatches,
    attrFirst_filter _ "class".data ?_ attrs]
  intro a ha
  rw [ha, stripAttrPred_class cfg hclass]
  rfl

theorem cleanTree_subtree_sound (cfg : RemoveSelectors)
    (hclass : ∀ a ∈ cfg.attributes, toLowerStr a ≠ "class".data) :
    ∀ (sub T : HNode), Subtree sub T →
      ∀ root, cleanTree cfg root = some T →
      ∀ name attrs children, sub = HNode.elem name attrs children →
      classMatches cfg attrs = true → name = "body".data := by
  intro sub T hsub
  induction hsub with
  | refl =>
    intro root hclean name attrs children hEq hmatch
    subst hEq
    cases root with
    | text s => simp [cleanTree] at hclean
    | elem rn ra rc =>
      rw [cleanTree] at hclean
      cases h1 : tagMatch cfg rn with
      | true => rw [h1] at hclean; simp at hclean
      | false =>
        rw [h1] at hclean
        simp only [Bool.false_eq_true, if_false] at hclean
        cases h2 : removeByClass cfg rn ra with
        | true => rw [h2] at hclean; simp at hclean
        | false =>
          rw [h2] at hclean
          simp only [Bool.false_eq_true, if_false, Option.some.injEq,
            HNode.elem.injEq] at hclean
          obtain ⟨hn, hattrs, _⟩ := hclean
          rw [removeByClass] at h2
          rcases Bool.and_eq_false_iff.mp h2 with hbody | hnomatch
          · have hb : (rn == "body".data) = true := by
              revert hbody
              cases rn == "body".data <;> simp
            rw [← hn, beq_iff_eq.mp hb]
          · rw [← hattrs, classMatches_filter cfg hclass ra] at hmatch
            rw [hmatch] at hnomatch
            cases hnomatch
  | step c n2 a2 ch2 hmem hs ih =>
    intro root hclean name attrs children hEq hmatch
    cases root with
    | text str => simp [cleanTree] at hclean
    | elem rn ra rc =>
      rw [cleanTree] at hclean
      cases h1 : tagMatch cfg rn with
      | true => rw [h1] at hclean; simp at hclean
      | false =>
        rw [h1] at hclean
        simp only [Bool.false_eq_true, if_false] at hclean
        cases h2 : removeByClass cfg rn ra with
        | true => rw [h2] at hclean; simp at hclean
        | false =>
          rw [h2] at hclean
          simp only [Bool.false_eq_true, if_false, Option.some.injEq,
            HNode.elem.injEq] at hclean
          obtain ⟨_, _, hch⟩ := hclean
          rw [← hch] at hmem
          obtain ⟨c1, _, hc1⟩ := cleanForest_mem cfg rc c hmem
          exact ih c1 hc1 name attrs children hEq hmatch

/-- C7: class-based removal.  For every configuration whose
attribute-removal set does not strip the class attribute itself, every
element that survives the cleaning traversal and whose class attribute
matches a configured exact class or a configured keyword (in prefix,
suffix or substring form) is named body: any other element whose class
matched was removed together with its whole subtree. -/
theorem c7_class_removal (cfg : RemoveSelectors) (root out : HNode)
    (name : List Char) (attrs : List (List Char × List Char)) (children : HForest)
    (hclass : ∀ a ∈ cfg.attributes, toLowerStr a ≠ "class".data)
    (hclean : cleanTree cfg root = some out)
    (hsub : Subtree (HNode.elem name attrs children) out)
    (hmatch : classMatches cfg attrs = true) :
    name = "body".data :=
  cleanTree_subtree_sound cfg hclass _ out hsub root hclean name attrs children rfl hmatch

/-- The configuration of the c7 witness: remove elements whose class
contains the keyword ad. -/
def adCfg : RemoveSelectors := RemoveSelectors.mk [] [] ["ad".data] []

/-- The document of the c7 witness: a body with class ad. -/
def bodyAd : HNode :=
  HNode.elem "body".data [("class".data, "ad".data)] HForest.nil

/-- Witness for c7_class_removal: the root body element itself survives
cleaning even though its class matches the keyword, and the theorem
applies to it. -/
theorem c7_class_witness : "body".data = "body".data :=
  c7_class_removal adCfg bodyAd bodyAd "body".data
    [("class".data, "ad".data)] HForest.nil
    (by decide) rfl (Subtree.refl bodyAd) rfl

mutual
/-- Nothing in the tree matches the configuration: no tag in the
removal set, no class match on a non-body element, no strippable
attribute, recursively. -/
def noMatchTree (cfg : RemoveSelectors) : HNode → Bool
  | HNode.text _ => true
  | HNode.elem name attrs children =>
    !tagMatch cfg name && !removeByClass cfg name attrs &&
    attrs.all (fun a => !stripAttrPred cfg a.1) && noMatchForest cfg children

def noMatchForest (cfg : RemoveSelectors) : HForest → Bool
  | HForest.nil => true
  | HForest.cons h t => noMatchTree cfg h && noMatchForest cfg t
end

mutual
theorem cleanTree_noMatch (cfg : RemoveSelectors) :
    ∀ t, noMatchTree cfg t = true → cleanTree cfg t = some t
  | HNode.text s, _ => rfl
  | HNode.elem name attrs children, h => by
    rw [noMatchTree] at h
    simp only [Bool.and_eq_true, Bool.not_eq_true'] at h
    obtain ⟨⟨⟨h1, h2⟩, h3⟩, h4⟩ := h
    rw [cleanTree, h1, h2]
    simp only [Bool.false_eq_true, if_false, Option.some.injEq]
    have hattrs : attrs.filter (fun a => !stripAttrPred cfg a.1) = attrs := by
      rw [List.filter_eq_self]
      intro a ha
      exact (List.all_eq_true.mp h3) a ha
    rw [hattrs, cleanForest_noMatch cfg children h4]

theorem cleanForest_noMatch (cfg : RemoveSelectors) :
    ∀ ts, noMatchForest cfg ts = true → cleanForest cfg ts = ts
  | HForest.nil, _ => rfl
  | HForest.cons h t, hnm => by
    rw [noMatchForest] at hnm
    simp only [Bool.and_eq_true] at hnm
    rw [cleanForest, cleanTree_noMatch cfg h hnm.1, cleanForest_noMatch cfg t hnm.2]
end

/-- C8: idempotence of cleaning.  For every input that is already free
of comments, whose parse tree the serializer maps back to the input
byte for byte, on which nothing matches the configuration (no tag in
the removal set, no class match outside body, no strippable
attribute), and whose whitespace is already collapsed and trimmed,
CleanHTML returns the input unchanged — in particular re-cleaning
already-cleaned output with those properties is the identity. -/
theorem c8_idempotent (cfg : RemoveSelectors) (parse : List Char → HForest)
    (s : List Char)
    (hnc : stripComments s = s)
    (hparse : renderForest (parse s) = s)
    (hnm : noMatchForest cfg (parse s) = true)
    (hws : cleanSpacesModel s = s) :
    cleanHTML cfg parse s = s := by
  rw [cleanHTML, hnc, cleanForest_noMatch cfg (parse s) hnm, hparse, hws]

set_option maxRecDepth 100000 in
/-- Witness for c8_idempotent: re-cleaning the already-cleaned scenario
output is the identity. -/
theorem c8_idempotent_witness :
    cleanHTML emptyCfg parseHi "<html><head></head><body>Hi</body></html>".data =
      "<html><head></head><body>Hi</body></html>".data :=
  c8_idempotent emptyCfg parseHi "<html><head></head><body>Hi</body></html>".data
    (by decide) (by decide) (by decide) (by decide)

end Crowl
